import Mathlib

/-!
Verification development for the openburn usage-tray core.

Shallow embedding conventions:
* JavaScript numbers are modelled as `JsNum := Option ℚ`; `none` stands for
  any non-finite value (`NaN`, `±Infinity`).  Arithmetic performed after the
  code's own `Number.isFinite` guards stays inside `ℚ`, which idealises IEEE
  doubles by exact rational arithmetic (no rounding, no overflow).
* JavaScript strings are modelled as `Str := List Char`, so that
  `String.prototype.lastIndexOf`, `slice` and `trim` can be rendered as
  index-level list operations.  `trim` removes the ASCII whitespace
  characters; exotic Unicode space code points are not modelled.
-/

abbrev Str := List Char

def spaceChar : Char := Char.ofNat 32

/-- ASCII whitespace predicate backing the model of `String.prototype.trim`. -/
def wsChar (c : Char) : Bool :=
  c = spaceChar ∨ c = Char.ofNat 9 ∨ c = Char.ofNat 10 ∨
    c = Char.ofNat 11 ∨ c = Char.ofNat 12 ∨ c = Char.ofNat 13

/-- Model of `String.prototype.trim`: drop whitespace from the front, then
from the back (via reversal). -/
def trim (s : Str) : Str :=
  ((s.dropWhile wsChar).reverse.dropWhile wsChar).reverse

/-- `needle` occurs in `hay` starting at index `i`. -/
abbrev occursAt (needle hay : Str) (i : Nat) : Prop :=
  (hay.drop i).take needle.length = needle

/-- Downward scan used by `lastIndexOf`: try index `n`, then `n - 1`, …, `0`. -/
def lastIndexOfFrom (needle hay : Str) : Nat → Option Nat
  | 0 => if occursAt needle hay 0 then some 0 else none
  | i + 1 =>
      if occursAt needle hay (i + 1) then some (i + 1)
      else lastIndexOfFrom needle hay i

/-- Model of `String.prototype.lastIndexOf` (returning `none` for `-1`). -/
def lastIndexOf (needle hay : Str) : Option Nat :=
  if hay.length < needle.length then none
  else lastIndexOfFrom needle hay (hay.length - needle.length)

/-- `" :: "` from src/lib/account-scoped-label.ts. -/
def ACCOUNT_LABEL_DELIMITER : Str := [spaceChar, ':', ':', spaceChar]

/-- `" @@ "` from src/lib/account-scoped-label.ts. -/
def ACCOUNT_META_DELIMITER : Str := [spaceChar, '@', '@', spaceChar]

/-- Result of `splitAccountScopedLabel`. -/
structure ScopedLabel where
  accountLabel : Option Str
  accountId : Option Str
  metricLabel : Str
deriving DecidableEq, Repr

/-- Translation of `splitAccountScopedLabel` (src/lib/account-scoped-label.ts,
the variant carrying `accountId`). -/
def splitAccountScopedLabel (label : Str) : ScopedLabel :=
  match lastIndexOf ACCOUNT_LABEL_DELIMITER label with
  | none => ⟨none, none, label⟩
  | some index =>
    let accountPart := trim (label.take index)
    let metricLabel := trim (label.drop (index + ACCOUNT_LABEL_DELIMITER.length))
    if accountPart = [] ∨ metricLabel = [] then ⟨none, none, label⟩
    else
      match lastIndexOf ACCOUNT_META_DELIMITER accountPart with
      | none => ⟨some accountPart, none, metricLabel⟩
      | some metaIndex =>
        let accountLabel := trim (accountPart.take metaIndex)
        let accountId := trim (accountPart.drop (metaIndex + ACCOUNT_META_DELIMITER.length))
        ⟨some (if accountLabel = [] then accountPart else accountLabel),
         if accountId = [] then none else some accountId,
         metricLabel⟩

/-- Translation of `getBaseMetricLabel`. -/
def getBaseMetricLabel (label : Str) : Str :=
  (splitAccountScopedLabel label).metricLabel

/-- Translation of `prefixAccountLabel` (src/lib/utils.ts): the scoped-label
encoder `accountLabel.trim() + " @@ " + accountId.trim() + " :: " +
metricLabel.trim()`. -/
def prefixAccountLabel (accountLabel accountId metricLabel : Str) : Str :=
  trim accountLabel ++ ACCOUNT_META_DELIMITER ++ trim accountId ++
    ACCOUNT_LABEL_DELIMITER ++ trim metricLabel

/-! ## JavaScript numbers -/

/-- A JavaScript number: `none` models any non-finite value. -/
abbrev JsNum := Option ℚ

/-- Value of a JsNum known to be finite (`0` is a don't-care default that the
embedded code only ever reaches behind an `isFinite` guard). -/
def jsVal : JsNum → ℚ
  | none => 0
  | some q => q

/-- Translation of `clamp01` (src/lib/utils.ts). -/
def clamp01 (value : JsNum) : ℚ :=
  match value with
  | none => 0
  | some v => if v < 0 then 0 else if 1 < v then 1 else v

/-! ## Pace estimator (src/lib/pace-status.ts) -/

inductive PaceStatus
  | ahead
  | onTrack
  | behind
deriving DecidableEq, Repr

structure PaceResult where
  status : PaceStatus
  projectedUsage : ℚ
deriving DecidableEq, Repr

/-- Translation of `calculatePaceStatus` (src/lib/pace-status.ts).  The five
`Number.isFinite` guards become the requirement that every argument is
`some _`. -/
def calculatePaceStatus (used limit resetsAtMs periodDurationMs nowMs : JsNum) :
    Option PaceResult :=
  match used, limit, resetsAtMs, periodDurationMs, nowMs with
  | some u, some l, some r, some d, some n =>
    if l ≤ 0 ∨ d ≤ 0 then none
    else
      let periodStartMs := r - d
      let elapsedMs := n - periodStartMs
      if elapsedMs ≤ 0 ∨ r ≤ n then none
      else if u = 0 then some ⟨.ahead, 0⟩
      else
        let usageRate := u / elapsedMs
        let projectedUsage := usageRate * d
        if l ≤ u then some ⟨.behind, projectedUsage⟩
        else
          let elapsedFraction := elapsedMs / d
          if elapsedFraction < 0.05 then none
          else if projectedUsage ≤ l * 0.8 then some ⟨.ahead, projectedUsage⟩
          else if projectedUsage ≤ l then some ⟨.onTrack, projectedUsage⟩
          else some ⟨.behind, projectedUsage⟩
  | _, _, _, _, _ => none

/-- Reference pace classification, written from the words of claim C2 (not
from the source): `{ahead, 0}` at zero usage; otherwise project
`used / elapsed * duration` and classify, with `used ≥ limit` forced to
`behind`. -/
def paceClaimSpec (used limit resetsAtMs periodDurationMs nowMs : ℚ) : PaceResult :=
  if used = 0 then ⟨.ahead, 0⟩
  else
    let elapsedMs := nowMs - (resetsAtMs - periodDurationMs)
    let projectedUsage := used / elapsedMs * periodDurationMs
    if limit ≤ used then ⟨.behind, projectedUsage⟩
    else if projectedUsage ≤ limit * 0.8 then ⟨.ahead, projectedUsage⟩
    else if projectedUsage ≤ limit then ⟨.onTrack, projectedUsage⟩
    else ⟨.behind, projectedUsage⟩

/-! ## Settings normalizer (src/lib/utils.ts) -/

structure ProviderSettings where
  order : List Str
  disabled : List Str
deriving DecidableEq, Repr

/-- `new Set(["claude", "codex", "copilot"])` from src/lib/utils.ts. -/
def DEFAULT_ENABLED_PROVIDERS : List Str :=
  [ ['c', 'l', 'a', 'u', 'd', 'e'],
    ['c', 'o', 'd', 'e', 'x'],
    ['c', 'o', 'p', 'i', 'l', 'o', 't'] ]

/-- First loop of `normalizeProviderSettings`: keep known ids from the stored
order, skipping ids already seen (the `seen` set always holds exactly the
ids pushed so far, so membership in the accumulator models it). -/
def filterKnownLoop (knownIds : List Str) : List Str → List Str → List Str
  | [], acc => acc
  | id :: rest, acc =>
    if id ∈ knownIds ∧ id ∉ acc then filterKnownLoop knownIds rest (acc ++ [id])
    else filterKnownLoop knownIds rest acc

/-- Second loop of `normalizeProviderSettings`: append known ids missing from
the order, tracking them in `newlyAdded`. -/
def appendMissingLoop : List Str → List Str → List Str → List Str × List Str
  | [], order, newlyAdded => (order, newlyAdded)
  | id :: rest, order, newlyAdded =>
    if id ∈ order then appendMissingLoop rest order newlyAdded
    else appendMissingLoop rest (order ++ [id]) (newlyAdded ++ [id])

/-- Third loop of `normalizeProviderSettings`: newly appended providers
default to disabled unless allow-listed. -/
def appendNewDisabledLoop : List Str → List Str → List Str
  | [], disabled => disabled
  | id :: rest, disabled =>
    if id ∈ DEFAULT_ENABLED_PROVIDERS ∨ id ∈ disabled then
      appendNewDisabledLoop rest disabled
    else appendNewDisabledLoop rest (disabled ++ [id])

/-- Provider registry entry metadata; this is all a `ProviderMeta` carries
that the normalizer and aggregator read (`name`, `iconUrl`, `brandColor`
and the manifest lines are never consulted by them and are kept as
opaque payload). -/
structure ProviderMeta where
  id : Str
  name : Str
  iconUrl : Str
  brandColor : Option Str
  primaryCandidates : List Str
deriving DecidableEq, Repr

/-- Translation of `normalizeProviderSettings` (src/lib/utils.ts). -/
def normalizeProviderSettings (settings : ProviderSettings)
    (providers : List ProviderMeta) : ProviderSettings :=
  let knownIds := providers.map (fun p => p.id)
  let order := filterKnownLoop knownIds settings.order []
  let result := appendMissingLoop knownIds order []
  let disabled := settings.disabled.filter (fun id => decide (id ∈ knownIds))
  ⟨result.1, appendNewDisabledLoop result.2 disabled⟩

/-- Translation of `areProviderSettingsEqual` (src/lib/utils.ts); the
source's length guards plus positional loops amount to list equality. -/
def areProviderSettingsEqual (a b : ProviderSettings) : Bool :=
  a.order == b.order && a.disabled == b.disabled

/-- First-occurrence deduplication, used to phrase what the normalizer's
`seen`-set loops compute ("deduplicated, in their stored relative order"). -/
def keepFirst : List Str → List Str
  | [] => []
  | x :: xs => x :: keepFirst (xs.filter (fun y => decide (y ≠ x)))
termination_by l => l.length
decreasing_by
  simp only [List.length_cons]
  exact Nat.lt_succ_of_le (List.length_filter_le _ _)

/-! ## Usage aggregator (src/lib/tray-primary-progress.ts) -/

inductive DisplayMode
  | used
  | left
deriving DecidableEq, Repr

/-- `DEFAULT_DISPLAY_MODE` (src/lib/utils.ts). -/
def DEFAULT_DISPLAY_MODE : DisplayMode := .left

inductive ProgressFormat
  | percent
  | dollars
  | count (suffix : Str)
deriving DecidableEq, Repr

/-- Payload of a `progress` metric line. -/
structure ProgressLine where
  label : Str
  used : JsNum
  limit : JsNum
  format : ProgressFormat
  resetsAt : Option Str
  periodDurationMs : JsNum
deriving DecidableEq, Repr

/-- `MetricLine` tagged union (src/lib/provider-types.ts); optional UI-only
fields (`color`, `subtitle`) are omitted. -/
inductive MetricLine
  | text (label : Str) (value : Str)
  | badge (label : Str) (badgeText : Str)
  | progress (p : ProgressLine)
deriving DecidableEq, Repr

structure ProviderOutput where
  providerId : Str
  displayName : Str
  plan : Option Str
  lines : List MetricLine
  iconUrl : Str
deriving DecidableEq, Repr

structure ProviderState where
  data : Option ProviderOutput
  loading : Bool
  error : Option Str
deriving DecidableEq, Repr

structure TrayPrimaryBar where
  id : Str
  fraction : Option ℚ
deriving DecidableEq, Repr

/-- Whether a metric line is a `progress` line carrying the given base metric
label (the `isProgressLine(line) && getBaseMetricLabel(line.label) === label`
test). -/
def lineMatchesLabel (label : Str) : MetricLine → Bool
  | .progress p => decide (getBaseMetricLabel p.label = label)
  | _ => false

/-- The progress lines of `lines` whose base metric label is `label`. -/
def matchingProgressLines (lines : List MetricLine) (label : Str) : List ProgressLine :=
  lines.filterMap (fun line =>
    match line with
    | .progress p => if getBaseMetricLabel p.label = label then some p else none
    | _ => none)

/-- A line is valid for aggregation: finite `limit > 0` and finite `used`. -/
def validProgressLine (line : ProgressLine) : Bool :=
  match line.limit, line.used with
  | some l, some _ => decide (0 < l)
  | _, _ => false

/-- Translation of `aggregateFraction` (src/lib/tray-primary-progress.ts).
In the `ℚ` idealisation a sum of finite values is always finite, so the
source's `Number.isFinite(totalLimit)` re-check is subsumed by
`totalLimit ≤ 0`. -/
def aggregateFraction (lines : List ProgressLine) (displayMode : DisplayMode) :
    Option ℚ :=
  let valid := lines.filter validProgressLine
  if valid = [] then none
  else
    let totalLimit := (valid.map (fun l => jsVal l.limit)).sum
    if totalLimit ≤ 0 then none
    else
      let totalUsed := (valid.map (fun l => jsVal l.used)).sum
      let shownAmount := if displayMode = .used then totalUsed else totalLimit - totalUsed
      some (clamp01 (some (shownAmount / totalLimit)))

/-- `new Map(providersMeta.map((p) => [p.id, p]))` — lookup in which a later
entry with the same id overwrites an earlier one. -/
def metaLookup (metas : List ProviderMeta) (id : Str) : Option ProviderMeta :=
  metas.foldl (fun acc m => if m.id = id then some m else acc) none

/-- Per-provider fraction computation of `getTrayPrimaryBars`: take the
state's data if any, find the first primary candidate present among the
progress lines, and aggregate the lines matching it. -/
def computeFraction (meta : ProviderMeta) (state : Option ProviderState)
    (displayMode : DisplayMode) : Option ℚ :=
  match state with
  | none => none
  | some st =>
    match st.data with
    | none => none
    | some data =>
      match meta.primaryCandidates.find?
          (fun label => data.lines.any (lineMatchesLabel label)) with
      | none => none
      | some primaryLabel =>
          aggregateFraction (matchingProgressLines data.lines primaryLabel) displayMode

/-- Main loop of `getTrayPrimaryBars`: walk `settings.order`, skip disabled,
unknown and candidate-less providers, push a bar per remaining provider and
break once `out.length >= maxBars` (checked after the push, as in the
source). -/
def trayLoop (metaById : Str → Option ProviderMeta) (disabled : List Str)
    (states : Str → Option ProviderState) (displayMode : DisplayMode)
    (maxBars : Nat) : List Str → List TrayPrimaryBar → List TrayPrimaryBar
  | [], out => out
  | id :: rest, out =>
    if id ∈ disabled then trayLoop metaById disabled states displayMode maxBars rest out
    else
      match metaById id with
      | none => trayLoop metaById disabled states displayMode maxBars rest out
      | some meta =>
        if meta.primaryCandidates = [] then
          trayLoop metaById disabled states displayMode maxBars rest out
        else
          let out2 := out ++ [⟨id, computeFraction meta (states id) displayMode⟩]
          if maxBars ≤ out2.length then out2
          else trayLoop metaById disabled states displayMode maxBars rest out2

/-- Translation of `getTrayPrimaryBars` (src/lib/tray-primary-progress.ts).
The record of provider states becomes a lookup function; `maxBars` is the
source's optional argument (default 4), modelled as a `Nat`. -/
def getTrayPrimaryBars (providersMeta : List ProviderMeta)
    (providerSettings : Option ProviderSettings)
    (providerStates : Str → Option ProviderState)
    (maxBars : Nat) (displayMode : DisplayMode) : List TrayPrimaryBar :=
  match providerSettings with
  | none => []
  | some settings =>
      trayLoop (metaLookup providersMeta) settings.disabled providerStates
        displayMode maxBars settings.order []

/-- Eligibility of a provider id for a tray bar: enabled, known, and with a
non-empty `primaryCandidates` list. -/
def isEligible (metaById : Str → Option ProviderMeta) (disabled : List Str)
    (id : Str) : Bool :=
  !decide (id ∈ disabled) &&
    (match metaById id with
     | none => false
     | some meta => !decide (meta.primaryCandidates = []))

/-- Fraction a bar for `id` will carry (meta resolved through the lookup). -/
def barFraction (metaById : Str → Option ProviderMeta)
    (states : Str → Option ProviderState) (displayMode : DisplayMode)
    (id : Str) : Option ℚ :=
  match metaById id with
  | none => none
  | some meta => computeFraction meta (states id) displayMode

/-! ## Tray icon quantization (src/lib/tray-bars-icon.ts) -/

/-- Translation of `getVisualBarFraction` (src/lib/tray-bars-icon.ts). -/
def getVisualBarFraction (fraction : JsNum) : ℚ :=
  match fraction with
  | none => 0
  | some f =>
    let clamped := max 0 (min 1 f)
    if 0.7 < clamped ∧ clamped < 1 then
      let remainder := 1 - clamped
      let quantizedRemainder := min 1 ((⌈remainder / 0.15⌉ : ℚ) * 0.15)
      max 0 (1 - quantizedRemainder)
    else clamped

/-- Reference quantization written from the words of claim C9 (not from the
source): clamp, pass values `≤ 0.7` and the value `1` through, and round the
remainder of values in `(0.7, 1)` up to the next multiple of `0.15`. -/
def visualFractionClaimSpec (f : ℚ) : ℚ :=
  let clamped := max 0 (min 1 f)
  if clamped ≤ 0.7 then clamped
  else if clamped = 1 then 1
  else 1 - min 1 ((⌈(1 - clamped) / 0.15⌉ : ℚ) * 0.15)

/-- The first character (if any) is not whitespace. -/
abbrev headNotWs (s : Str) : Prop := ∀ c ∈ s.take 1, wsChar c = false

/-- The last character (if any) is not whitespace. -/
abbrev lastNotWs (s : Str) : Prop := ∀ c ∈ s.reverse.take 1, wsChar c = false

/-- The ids of the provider registry, in registry order. -/
def knownIdsOf (providers : List ProviderMeta) : List Str :=
  providers.map (fun p => p.id)

/-- The known ids of the stored order, deduplicated keeping first
occurrences, in their stored relative order. -/
def storedKnownOrder (settings : ProviderSettings)
    (providers : List ProviderMeta) : List Str :=
  keepFirst (settings.order.filter (fun id => decide (id ∈ knownIdsOf providers)))

/-- The known ids absent from the stored order, in registry order,
deduplicated — exactly the ids the normalizer's second loop appends. -/
def newlyAddedOf (settings : ProviderSettings)
    (providers : List ProviderMeta) : List Str :=
  keepFirst ((knownIdsOf providers).filter
    (fun id => decide (id ∉ storedKnownOrder settings providers)))

/-- The string contains neither the outer delimiter `" :: "` nor the inner
delimiter `" @@ "`. -/
abbrev noDelims (s : Str) : Prop :=
  lastIndexOf ACCOUNT_LABEL_DELIMITER s = none ∧
    lastIndexOf ACCOUNT_META_DELIMITER s = none

/-- Two-account fixture: a provider `p` whose primary metric `T` has scoped
progress lines `(used 10, limit 100)` and `(used 5, limit 50)`. -/
def twoAccountLines : List MetricLine :=
  [ .progress ⟨prefixAccountLabel ['A'] ['a'] ['T'], some 10, some 100,
      .percent, none, none⟩,
    .progress ⟨prefixAccountLabel ['B'] ['b'] ['T'], some 5, some 50,
      .percent, none, none⟩ ]

def twoAccountMeta : ProviderMeta := ⟨['p'], [], [], none, [['T']]⟩

/-- One-line fixture used to instantiate the aggregation formula. -/
def sampleProgressLine : ProgressLine :=
  ⟨['T'], some 1, some 2, .percent, none, none⟩

def twoAccountStates : Str → Option ProviderState := fun id =>
  if id = ['p'] then
    some ⟨some ⟨['p'], [], none, twoAccountLines, []⟩, false, none⟩
  else none

/-! ## Claim theorems: pace estimator and quantization -/

/-- C9: the tray visual-fraction quantization maps every finite raw fraction
as the claim's formula does — after clamping to `[0,1]`, values at most `0.7`
and the value `1` pass through unchanged, and for `0.7 < f < 1` the displayed
fraction is `1 - min 1 (⌈(1-f)/0.15⌉ * 0.15)`; in particular `0.92 ↦ 0.85`
and `0.5 ↦ 0.5`. -/
theorem spec_c9 :
    (∀ f : ℚ, getVisualBarFraction (some f) = visualFractionClaimSpec f) ∧
    getVisualBarFraction (some 0.92) = 0.85 ∧
    getVisualBarFraction (some 0.5) = 0.5 := by
  refine ⟨?_, ?_, ?_⟩
  · intro f
    simp only [getVisualBarFraction, visualFractionClaimSpec]
    have hle : max 0 (min 1 f) ≤ 1 := by
      apply max_le <;> [norm_num; exact min_le_left 1 f]
    rcases le_or_lt (max 0 (min 1 f)) 0.7 with h1 | h1
    · rw [if_neg (by push_neg; intro h07; linarith), if_pos h1]
    · rcases lt_or_eq_of_le hle with h2 | h2
      · rw [if_pos ⟨h1, h2⟩, if_neg (by linarith), if_neg (by linarith)]
        have hmin : min 1 ((⌈(1 - max 0 (min 1 f)) / 0.15⌉ : ℚ) * 0.15) ≤ 1 :=
          min_le_left _ _
        rw [max_eq_right (by linarith)]
      · rw [if_neg (by rw [h2]; simp), if_neg (by rw [h2]; norm_num), if_pos h2, h2]
  · have h : (⌈(8 : ℚ) / 15⌉ : ℤ) = 1 := by
      rw [Int.ceil_eq_iff]
      norm_num
    simp only [getVisualBarFraction]
    norm_num [h]
  · simp only [getVisualBarFraction]
    norm_num

/-- C10: `getTrayPrimaryBars` returns the empty list whenever
`providerSettings` is `null`, regardless of the other arguments. -/
theorem spec_c10 :
    ∀ (providersMeta : List ProviderMeta)
      (providerStates : Str → Option ProviderState)
      (maxBars : Nat) (displayMode : DisplayMode),
      getTrayPrimaryBars providersMeta none providerStates maxBars displayMode = [] :=
  fun _ _ _ _ => rfl

/-- C2: whenever `calculatePaceStatus` returns a result, that result agrees
with the reference classification of the claim (`{ahead, 0}` at zero usage;
otherwise project `used/elapsed * duration`, force `behind` at or over the
limit, and classify by the `0.8` and `1.0` thresholds). -/
theorem spec_c2 :
    ∀ (u l r d n : ℚ) (res : PaceResult),
      calculatePaceStatus (some u) (some l) (some r) (some d) (some n) = some res →
      res = paceClaimSpec u l r d n := by
  intro u l r d n res h
  simp only [calculatePaceStatus] at h
  split_ifs at h with h1 h2 h3 h4 h5 h6 h7 <;>
    simp only [Option.some.injEq] at h <;>
    subst h <;>
    push_neg at * <;>
    simp only [paceClaimSpec]
  · rw [if_pos h3]
  · rw [if_neg h3, if_pos h4]
  · rw [if_neg h3, if_neg (by push_neg; exact h4), if_pos h6]
  · rw [if_neg h3, if_neg (by push_neg; exact h4), if_neg (by push_neg; exact h6),
      if_pos h7]
  · rw [if_neg h3, if_neg (by push_neg; exact h4), if_neg (by push_neg; exact h6),
      if_neg (by push_neg; exact h7)]

theorem spec_c2_witness : (⟨.ahead, 2⟩ : PaceResult) = paceClaimSpec 1 10 100 100 50 :=
  spec_c2 1 10 100 100 50 ⟨.ahead, 2⟩ (by simp only [calculatePaceStatus]; norm_num)

/-- C3: `calculatePaceStatus` returns `null` exactly when some argument is
non-finite, or `limit ≤ 0`, or `periodDurationMs ≤ 0`, or the elapsed time
`nowMs - (resetsAtMs - periodDurationMs)` is non-positive, or
`nowMs ≥ resetsAtMs`, or — outside the zero-usage and over-limit shortcuts —
the elapsed fraction is below `0.05`. -/
theorem spec_c3 :
    (∀ u l r d n : ℚ,
      calculatePaceStatus (some u) (some l) (some r) (some d) (some n) = none ↔
        l ≤ 0 ∨ d ≤ 0 ∨ n - (r - d) ≤ 0 ∨ r ≤ n ∨
          (u ≠ 0 ∧ u < l ∧ (n - (r - d)) / d < 0.05)) ∧
    (∀ used limit resetsAtMs periodDurationMs nowMs : JsNum,
      used = none ∨ limit = none ∨ resetsAtMs = none ∨
        periodDurationMs = none ∨ nowMs = none →
      calculatePaceStatus used limit resetsAtMs periodDurationMs nowMs = none) := by
  constructor
  · intro u l r d n
    simp only [calculatePaceStatus]
    split_ifs with h1 h2 h3 h4 h5 h6 h7 <;>
      simp only [reduceCtorEq, true_iff, false_iff, iff_true, not_or, not_and, not_lt,
        ne_eq, not_not] <;>
      push_neg at *
    · tauto
    · tauto
    · refine ⟨by linarith [h1.1], by linarith [h1.2], by linarith [h2.1],
        by linarith [h2.2], fun hne => absurd h3 hne⟩
    · exact ⟨by linarith [h1.1], by linarith [h1.2], by linarith [h2.1],
        by linarith [h2.2], fun _ hlt => absurd h4 (not_le.mpr hlt)⟩
    · exact Or.inr (Or.inr (Or.inr (Or.inr ⟨h3, h4, h5⟩)))
    · exact ⟨by linarith [h1.1], by linarith [h1.2], by linarith [h2.1],
        by linarith [h2.2], fun _ _ => h5⟩
    · exact ⟨by linarith [h1.1], by linarith [h1.2], by linarith [h2.1],
        by linarith [h2.2], fun _ _ => h5⟩
    · exact ⟨by linarith [h1.1], by linarith [h1.2], by linarith [h2.1],
        by linarith [h2.2], fun _ _ => h5⟩
  · intro used limit resetsAtMs periodDurationMs nowMs h
    rcases used with _ | qu <;> rcases limit with _ | ql <;>
      rcases resetsAtMs with _ | qr <;> rcases periodDurationMs with _ | qd <;>
      rcases nowMs with _ | qn <;> simp_all [calculatePaceStatus]

theorem spec_c3_witness :
    calculatePaceStatus none (some 1) (some 1) (some 1) (some 1) = none :=
  spec_c3.2 none (some 1) (some 1) (some 1) (some 1) (Or.inl rfl)

/-! ## Codec lemmas -/

theorem occursAt_length_le {needle hay : Str} {i : Nat} (hn : needle ≠ [])
    (h : occursAt needle hay i) : i + needle.length ≤ hay.length := by
  have hlen := congrArg List.length h
  have hpos : 0 < needle.length := List.length_pos.mpr hn
  simp only [List.length_take, List.length_drop] at hlen
  omega

theorem lastIndexOfFrom_eq_some_iff {needle hay : Str} :
    ∀ N i, lastIndexOfFrom needle hay N = some i ↔
      i ≤ N ∧ occursAt needle hay i ∧
        ∀ j, i < j → j ≤ N → ¬ occursAt needle hay j := by
  intro N
  induction N with
  | zero =>
    intro i
    by_cases h0 : occursAt needle hay 0
    · rw [lastIndexOfFrom, if_pos h0]
      simp only [Option.some.injEq]
      constructor
      · rintro rfl
        exact ⟨Nat.le_refl 0, h0, fun j hj hj' => ((by omega : False)).elim⟩
      · rintro ⟨hi, _, _⟩
        omega
    · rw [lastIndexOfFrom, if_neg h0]
      simp only [reduceCtorEq, false_iff]
      rintro ⟨hi, hocc, _⟩
      have hz : i = 0 := by omega
      exact h0 (hz ▸ hocc)
  | succ N ih =>
    intro i
    by_cases hS : occursAt needle hay (N + 1)
    · rw [lastIndexOfFrom, if_pos hS]
      simp only [Option.some.injEq]
      constructor
      · rintro rfl
        exact ⟨Nat.le_refl _, hS, fun j hj hj' => ((by omega : False)).elim⟩
      · rintro ⟨hi, hocc, hmax⟩
        rcases Nat.lt_or_ge i (N + 1) with hlt | hge
        · exact absurd hS (hmax _ (by omega) (Nat.le_refl _))
        · omega
    · rw [lastIndexOfFrom, if_neg hS, ih]
      constructor
      · rintro ⟨hi, hocc, hmax⟩
        refine ⟨by omega, hocc, fun j hj hj' hjocc => ?_⟩
        rcases Nat.lt_or_ge j (N + 1) with hlt | hge
        · exact hmax j hj (by omega) hjocc
        · have hj1 : j = N + 1 := by omega
          exact hS (hj1 ▸ hjocc)
      · rintro ⟨hi, hocc, hmax⟩
        have hne : i ≠ N + 1 := fun he => hS (he ▸ hocc)
        exact ⟨by omega, hocc, fun j hj hj' => hmax j hj (by omega)⟩

theorem lastIndexOfFrom_eq_none_iff {needle hay : Str} :
    ∀ N, lastIndexOfFrom needle hay N = none ↔
      ∀ j, j ≤ N → ¬ occursAt needle hay j := by
  intro N
  induction N with
  | zero =>
    by_cases h0 : occursAt needle hay 0
    · rw [lastIndexOfFrom, if_pos h0]
      simp only [reduceCtorEq, false_iff, not_forall]
      exact ⟨0, Nat.le_refl 0, by simpa using h0⟩
    · rw [lastIndexOfFrom, if_neg h0]
      simp only [true_iff]
      intro j hj
      have hz : j = 0 := by omega
      exact hz ▸ h0
  | succ N ih =>
    by_cases hS : occursAt needle hay (N + 1)
    · rw [lastIndexOfFrom, if_pos hS]
      simp only [reduceCtorEq, false_iff, not_forall]
      exact ⟨N + 1, Nat.le_refl _, by simpa using hS⟩
    · rw [lastIndexOfFrom, if_neg hS, ih]
      constructor
      · intro h j hj
        rcases Nat.lt_or_ge j (N + 1) with hlt | hge
        · exact h j (by omega)
        · have hj1 : j = N + 1 := by omega
          exact hj1 ▸ hS
      · intro h j hj
        exact h j (by omega)

theorem lastIndexOf_eq_some_iff {needle hay : Str} {i : Nat} (hn : needle ≠ []) :
    lastIndexOf needle hay = some i ↔
      occursAt needle hay i ∧ ∀ j, i < j → ¬ occursAt needle hay j := by
  have hpos : 0 < needle.length := List.length_pos.mpr hn
  unfold lastIndexOf
  split_ifs with hshort
  · simp only [reduceCtorEq, false_iff, not_and]
    intro hocc
    have := occursAt_length_le hn hocc
    omega
  · rw [lastIndexOfFrom_eq_some_iff]
    constructor
    · rintro ⟨hi, hocc, hmax⟩
      refine ⟨hocc, fun j hj hjocc => ?_⟩
      have := occursAt_length_le hn hjocc
      exact hmax j hj (by omega) hjocc
    · rintro ⟨hocc, hmax⟩
      have := occursAt_length_le hn hocc
      exact ⟨by omega, hocc, fun j hj _ => hmax j hj⟩

theorem lastIndexOf_eq_none_iff {needle hay : Str} (hn : needle ≠ []) :
    lastIndexOf needle hay = none ↔ ∀ j, ¬ occursAt needle hay j := by
  have hpos : 0 < needle.length := List.length_pos.mpr hn
  unfold lastIndexOf
  split_ifs with hshort
  · simp only [true_iff]
    intro j hocc
    have := occursAt_length_le hn hocc
    omega
  · rw [lastIndexOfFrom_eq_none_iff]
    constructor
    · intro h j hocc
      have := occursAt_length_le hn hocc
      exact h j (by omega) hocc
    · intro h j _
      exact h j

theorem dropWhile_ws_eq_self {s : Str} (h : headNotWs s) :
    s.dropWhile wsChar = s := by
  cases s with
  | nil => rfl
  | cons c t =>
    have hc : wsChar c = false := h c (by simp)
    simp [List.dropWhile_cons, hc]

theorem trim_eq_self {s : Str} (h1 : headNotWs s) (h2 : lastNotWs s) :
    trim s = s := by
  unfold trim
  rw [dropWhile_ws_eq_self h1, dropWhile_ws_eq_self h2, List.reverse_reverse]

theorem headNotWs_append {a z : Str} (h : headNotWs a) (hne : a ≠ []) :
    headNotWs (a ++ z) := by
  cases a with
  | nil => exact absurd rfl hne
  | cons c t =>
    intro x hx
    simp only [List.cons_append, List.take_succ_cons, List.take_zero,
      List.mem_singleton] at hx
    exact hx ▸ h c (by simp)

theorem lastNotWs_append {a z : Str} (h : lastNotWs z) (hne : z ≠ []) :
    lastNotWs (a ++ z) := by
  unfold lastNotWs at *
  rw [List.reverse_append]
  exact headNotWs_append h (by simpa using hne)

theorem drop_append_left {x w : Str} {j : Nat} (hj : x.length ≤ j) :
    (x ++ w).drop j = w.drop (j - x.length) := by
  have hj' : j = x.length + (j - x.length) := by omega
  rw [hj', List.drop_append, Nat.add_sub_cancel_left]

theorem lastIndexOf_sandwich {c : Char} (hc : c ≠ spaceChar) (x y : Str)
    (hno : lastIndexOf [spaceChar, c, c, spaceChar] y = none)
    (hstart : y.take 3 ≠ [c, c, spaceChar]) :
    lastIndexOf [spaceChar, c, c, spaceChar]
      (x ++ [spaceChar, c, c, spaceChar] ++ y) = some x.length := by
  have hd : ([spaceChar, c, c, spaceChar] : Str) ≠ [] := by simp
  rw [lastIndexOf_eq_some_iff hd]
  have hnone := (lastIndexOf_eq_none_iff hd).mp hno
  constructor
  · show ((x ++ [spaceChar, c, c, spaceChar] ++ y).drop x.length).take 4 =
      [spaceChar, c, c, spaceChar]
    rw [List.append_assoc, List.drop_left]
    rfl
  · intro j hj hocc
    have hdrop : (x ++ [spaceChar, c, c, spaceChar] ++ y).drop j =
        ([spaceChar, c, c, spaceChar] ++ y).drop (j - x.length) := by
      rw [List.append_assoc]
      exact drop_append_left (by omega)
    rw [show occursAt [spaceChar, c, c, spaceChar]
          (x ++ [spaceChar, c, c, spaceChar] ++ y) j =
        (((x ++ [spaceChar, c, c, spaceChar] ++ y).drop j).take 4 =
          [spaceChar, c, c, spaceChar]) from rfl, hdrop] at hocc
    have hcase : j - x.length = 1 ∨ j - x.length = 2 ∨ j - x.length = 3 ∨
        4 ≤ j - x.length := by omega
    rcases hcase with h1 | h2 | h3 | h4
    · rw [h1] at hocc
      simp only [List.cons_append, List.nil_append, List.drop_succ_cons,
        List.drop_zero, List.take_succ_cons, List.cons.injEq] at hocc
      exact hc hocc.1
    · rw [h2] at hocc
      simp only [List.cons_append, List.nil_append, List.drop_succ_cons,
        List.drop_zero, List.take_succ_cons, List.cons.injEq] at hocc
      exact hc hocc.1
    · rw [h3] at hocc
      simp only [List.cons_append, List.nil_append, List.drop_succ_cons,
        List.drop_zero, List.take_succ_cons, List.cons.injEq] at hocc
      exact hstart hocc.2
    · have hlen4 : ([spaceChar, c, c, spaceChar] : Str).length ≤ j - x.length := by
        simpa using h4
      rw [drop_append_left hlen4] at hocc
      exact hnone _ hocc

/-! ## Claim theorems: scoped-label codec -/

/-- C7: `splitAccountScopedLabel` is total by construction and returns the
unscoped fallback `{null, null, label}` for every label without the outer
delimiter, and for every label where either half of the outer split is
empty (after trimming, which subsumes the raw halves being empty). -/
theorem spec_c7 :
    ∀ label : Str,
      (lastIndexOf ACCOUNT_LABEL_DELIMITER label = none →
        splitAccountScopedLabel label = ⟨none, none, label⟩) ∧
      (∀ i, lastIndexOf ACCOUNT_LABEL_DELIMITER label = some i →
        trim (label.take i) = [] ∨
          trim (label.drop (i + ACCOUNT_LABEL_DELIMITER.length)) = [] →
        splitAccountScopedLabel label = ⟨none, none, label⟩) := by
  intro label
  constructor
  · intro h
    simp only [splitAccountScopedLabel, h]
  · intro i hi hemp
    simp only [splitAccountScopedLabel, hi]
    rw [if_pos hemp]

theorem spec_c7_witness :
    splitAccountScopedLabel ['x'] = ⟨none, none, ['x']⟩ :=
  (spec_c7 ['x']).1 (by decide)

/-- Counterexample to C6 as stated: both inputs below are non-empty and
contain neither delimiter, yet the decoder does not return them.  With
`a = " "` the encoder's trim empties the account label, and with
`m = ":: c"` the outer delimiter's trailing space overlaps `m`'s leading
`"::"` so the last occurrence of `" :: "` lands inside the encoded
string's tail. -/
theorem spec_c6_counterexample :
    (([spaceChar] : Str) ≠ [] ∧ noDelims [spaceChar] ∧
      (['x'] : Str) ≠ [] ∧ noDelims ['x'] ∧
      (['y'] : Str) ≠ [] ∧ noDelims ['y'] ∧
      splitAccountScopedLabel (prefixAccountLabel [spaceChar] ['x'] ['y']) ≠
        ⟨some [spaceChar], some ['x'], ['y']⟩) ∧
    ((['a'] : Str) ≠ [] ∧ noDelims ['a'] ∧
      (['b'] : Str) ≠ [] ∧ noDelims ['b'] ∧
      ([':', ':', spaceChar, 'c'] : Str) ≠ [] ∧
      noDelims [':', ':', spaceChar, 'c'] ∧
      splitAccountScopedLabel
          (prefixAccountLabel ['a'] ['b'] [':', ':', spaceChar, 'c']) ≠
        ⟨some ['a'], some ['b'], [':', ':', spaceChar, 'c']⟩) := by
  decide

/-- C6 (amended): for non-empty `a`, `id`, `m` that contain neither
delimiter, neither start nor end with whitespace, and do not start with the
delimiter fragments `"@@ "` (for `id`) and `":: "` (for `m`), decoding the
encoded label returns exactly `{a, id, m}`. -/
theorem spec_c6 :
    ∀ a id m : Str,
      a ≠ [] → id ≠ [] → m ≠ [] →
      noDelims a → noDelims id → noDelims m →
      headNotWs a → lastNotWs a → headNotWs id → lastNotWs id →
      headNotWs m → lastNotWs m →
      id.take 3 ≠ ['@', '@', spaceChar] →
      m.take 3 ≠ [':', ':', spaceChar] →
      splitAccountScopedLabel (prefixAccountLabel a id m) =
        ⟨some a, some id, m⟩ := by
  intro a id m ha hid hm hnda hndid hndm h1a h2a h1id h2id h1m h2m hid3 hm3
  have hta : trim a = a := trim_eq_self h1a h2a
  have htid : trim id = id := trim_eq_self h1id h2id
  have htm : trim m = m := trim_eq_self h1m h2m
  unfold prefixAccountLabel
  rw [hta, htid, htm]
  have hAne : a ++ ACCOUNT_META_DELIMITER ++ id ≠ [] := by
    simp [List.append_eq_nil, ACCOUNT_META_DELIMITER]
  have hOuter : lastIndexOf ACCOUNT_LABEL_DELIMITER
      (a ++ ACCOUNT_META_DELIMITER ++ id ++ ACCOUNT_LABEL_DELIMITER ++ m) =
      some (a ++ ACCOUNT_META_DELIMITER ++ id).length :=
    lastIndexOf_sandwich (by decide) (a ++ ACCOUNT_META_DELIMITER ++ id) m hndm.1 hm3
  have hInner : lastIndexOf ACCOUNT_META_DELIMITER
      (a ++ ACCOUNT_META_DELIMITER ++ id) = some a.length :=
    lastIndexOf_sandwich (by decide) a id hndid.2 hid3
  have htake : (a ++ ACCOUNT_META_DELIMITER ++ id ++ ACCOUNT_LABEL_DELIMITER ++ m).take
      (a ++ ACCOUNT_META_DELIMITER ++ id).length = a ++ ACCOUNT_META_DELIMITER ++ id := by
    rw [List.append_assoc (a ++ ACCOUNT_META_DELIMITER ++ id), List.take_left]
  have hdrop : (a ++ ACCOUNT_META_DELIMITER ++ id ++ ACCOUNT_LABEL_DELIMITER ++ m).drop
      ((a ++ ACCOUNT_META_DELIMITER ++ id).length + ACCOUNT_LABEL_DELIMITER.length) = m := by
    rw [show (a ++ ACCOUNT_META_DELIMITER ++ id).length + ACCOUNT_LABEL_DELIMITER.length =
        (a ++ ACCOUNT_META_DELIMITER ++ id ++ ACCOUNT_LABEL_DELIMITER).length by
      simp only [List.length_append], List.drop_left]
  have hA1 : headNotWs (a ++ ACCOUNT_META_DELIMITER ++ id) := by
    rw [List.append_assoc]
    exact headNotWs_append h1a ha
  have hA2 : lastNotWs (a ++ ACCOUNT_META_DELIMITER ++ id) :=
    lastNotWs_append h2id hid
  have htA : trim (a ++ ACCOUNT_META_DELIMITER ++ id) = a ++ ACCOUNT_META_DELIMITER ++ id :=
    trim_eq_self hA1 hA2
  have htakeIn : (a ++ ACCOUNT_META_DELIMITER ++ id).take a.length = a := by
    rw [List.append_assoc, List.take_left]
  have hdropIn : (a ++ ACCOUNT_META_DELIMITER ++ id).drop
      (a.length + ACCOUNT_META_DELIMITER.length) = id := by
    rw [show a.length + ACCOUNT_META_DELIMITER.length =
        (a ++ ACCOUNT_META_DELIMITER).length by simp, List.drop_left]
  simp only [splitAccountScopedLabel, hOuter, htake, hdrop, htA, htm, hInner,
    htakeIn, hdropIn, hta, htid]
  rw [if_neg (by push_neg; exact ⟨hAne, hm⟩), if_neg ha, if_neg hid]

theorem spec_c6_witness :
    splitAccountScopedLabel (prefixAccountLabel ['A'] ['b'] ['T']) =
      ⟨some ['A'], some ['b'], ['T']⟩ :=
  spec_c6 ['A'] ['b'] ['T'] (by decide) (by decide) (by decide) (by decide)
    (by decide) (by decide) (by decide) (by decide) (by decide) (by decide)
    (by decide) (by decide) (by decide) (by decide)

/-! ## Settings normalizer lemmas -/

theorem mem_keepFirst (l : List Str) (y : Str) : y ∈ keepFirst l ↔ y ∈ l := by
  induction l using keepFirst.induct with
  | case1 => simp [keepFirst]
  | case2 x xs ih =>
    rw [keepFirst]
    simp only [List.mem_cons, ih, List.mem_filter, decide_eq_true_eq]
    constructor
    · rintro (rfl | ⟨hy, _⟩)
      · exact Or.inl rfl
      · exact Or.inr hy
    · rintro (rfl | hy')
      · exact Or.inl rfl
      · by_cases hyx : y = x
        · exact Or.inl hyx
        · exact Or.inr ⟨hy', hyx⟩

theorem nodup_keepFirst (l : List Str) : (keepFirst l).Nodup := by
  induction l using keepFirst.induct with
  | case1 => simp [keepFirst]
  | case2 x xs ih =>
    rw [keepFirst]
    refine List.nodup_cons.mpr ⟨fun hx => ?_, ih⟩
    have := (mem_keepFirst _ _).mp hx
    simp at this

theorem keepFirst_of_nodup (l : List Str) (h : l.Nodup) : keepFirst l = l := by
  induction l using keepFirst.induct with
  | case1 => rw [keepFirst]
  | case2 x xs ih =>
    have hx : x ∉ xs := (List.nodup_cons.mp h).1
    have hfil : xs.filter (fun y => decide (y ≠ x)) = xs :=
      List.filter_eq_self.mpr fun y hy =>
        decide_eq_true (fun he => hx (he ▸ hy))
    rw [hfil] at ih
    rw [keepFirst, hfil, ih ((List.nodup_cons.mp h).2)]

theorem filterKnownLoop_eq (known : List Str) :
    ∀ (ids acc : List Str),
      filterKnownLoop known ids acc =
        acc ++ keepFirst (ids.filter (fun id => decide (id ∈ known ∧ id ∉ acc))) := by
  intro ids
  induction ids with
  | nil => intro acc; rw [filterKnownLoop]; simp [keepFirst]
  | cons id rest ih =>
    intro acc
    rw [filterKnownLoop]
    by_cases h : id ∈ known ∧ id ∉ acc
    · rw [if_pos h, ih]
      have hfil : rest.filter (fun y => decide (y ∈ known ∧ y ∉ acc ++ [id])) =
          (rest.filter (fun y => decide (y ∈ known ∧ y ∉ acc))).filter
            (fun y => decide (y ≠ id)) := by
        rw [List.filter_filter]
        refine List.filter_congr fun y _ => ?_
        rw [← Bool.decide_and]
        simp only [decide_eq_decide, List.mem_append, List.mem_singleton]
        tauto
      have hcons : (id :: rest).filter (fun y => decide (y ∈ known ∧ y ∉ acc)) =
          id :: rest.filter (fun y => decide (y ∈ known ∧ y ∉ acc)) := by
        simp [List.filter_cons, h]
      rw [hfil, hcons, keepFirst]
      simp [List.append_assoc]
    · rw [if_neg h, ih]
      have hcons : (id :: rest).filter (fun y => decide (y ∈ known ∧ y ∉ acc)) =
          rest.filter (fun y => decide (y ∈ known ∧ y ∉ acc)) := by
        simp [List.filter_cons, h]
      rw [hcons]

theorem appendMissingLoop_eq :
    ∀ (ids order newly : List Str),
      appendMissingLoop ids order newly =
        (order ++ keepFirst (ids.filter (fun id => decide (id ∉ order))),
         newly ++ keepFirst (ids.filter (fun id => decide (id ∉ order)))) := by
  intro ids
  induction ids with
  | nil => intro order newly; rw [appendMissingLoop]; simp [keepFirst]
  | cons id rest ih =>
    intro order newly
    rw [appendMissingLoop]
    by_cases h : id ∈ order
    · rw [if_pos h, ih]
      have hcons : (id :: rest).filter (fun y => decide (y ∉ order)) =
          rest.filter (fun y => decide (y ∉ order)) := by
        simp [List.filter_cons, h]
      rw [hcons]
    · rw [if_neg h, ih]
      have hfil : rest.filter (fun y => decide (y ∉ order ++ [id])) =
          (rest.filter (fun y => decide (y ∉ order))).filter
            (fun y => decide (y ≠ id)) := by
        rw [List.filter_filter]
        refine List.filter_congr fun y _ => ?_
        rw [← Bool.decide_and]
        simp only [decide_eq_decide, List.mem_append, List.mem_singleton, not_or]
        tauto
      have hcons : (id :: rest).filter (fun y => decide (y ∉ order)) =
          id :: rest.filter (fun y => decide (y ∉ order)) := by
        simp [List.filter_cons, h]
      rw [hfil, hcons, keepFirst]
      simp [List.append_assoc]

theorem mem_appendNewDisabledLoop :
    ∀ (newly disabled : List Str) (y : Str),
      y ∈ appendNewDisabledLoop newly disabled ↔
        y ∈ disabled ∨ (y ∈ newly ∧ y ∉ DEFAULT_ENABLED_PROVIDERS) := by
  intro newly
  induction newly with
  | nil => intro disabled y; rw [appendNewDisabledLoop]; simp
  | cons id rest ih =>
    intro disabled y
    rw [appendNewDisabledLoop]
    by_cases h : id ∈ DEFAULT_ENABLED_PROVIDERS ∨ id ∈ disabled
    · rw [if_pos h, ih]
      simp only [List.mem_cons]
      constructor
      · rintro (hd | ⟨hr, hdef⟩)
        · exact Or.inl hd
        · exact Or.inr ⟨Or.inr hr, hdef⟩
      · rintro (hd | ⟨rfl | hr, hdef⟩)
        · exact Or.inl hd
        · exact Or.inl (h.resolve_left hdef)
        · exact Or.inr ⟨hr, hdef⟩
    · rw [if_neg h, ih]
      push_neg at h
      simp only [List.mem_append, List.mem_cons, List.not_mem_nil, or_false]
      constructor
      · rintro ((hd | rfl) | ⟨hr, hdef⟩)
        · exact Or.inl hd
        · exact Or.inr ⟨Or.inl rfl, h.1⟩
        · exact Or.inr ⟨Or.inr hr, hdef⟩
      · rintro (hd | ⟨rfl | hr, hdef⟩)
        · exact Or.inl (Or.inl hd)
        · exact Or.inl (Or.inr rfl)
        · exact Or.inr ⟨hr, hdef⟩

theorem normalizeSettings_eq (s : ProviderSettings) (providers : List ProviderMeta) :
    normalizeProviderSettings s providers =
      ⟨storedKnownOrder s providers ++ newlyAddedOf s providers,
       appendNewDisabledLoop (newlyAddedOf s providers)
         (s.disabled.filter (fun id => decide (id ∈ knownIdsOf providers)))⟩ := by
  simp only [normalizeProviderSettings, newlyAddedOf, storedKnownOrder, knownIdsOf]
  rw [filterKnownLoop_eq, appendMissingLoop_eq]
  simp only [List.nil_append]
  have hf : s.order.filter
      (fun id => decide (id ∈ providers.map (fun p => p.id) ∧ id ∉ ([] : List Str))) =
      s.order.filter (fun id => decide (id ∈ providers.map (fun p => p.id))) :=
    List.filter_congr (fun y _ => by simp)
  rw [hf]

theorem mem_storedKnownOrder (s : ProviderSettings) (providers : List ProviderMeta)
    (y : Str) : y ∈ storedKnownOrder s providers ↔
      y ∈ s.order ∧ y ∈ knownIdsOf providers := by
  unfold storedKnownOrder
  rw [mem_keepFirst]
  simp [List.mem_filter]

theorem mem_newlyAddedOf (s : ProviderSettings) (providers : List ProviderMeta)
    (y : Str) : y ∈ newlyAddedOf s providers ↔
      y ∈ knownIdsOf providers ∧ y ∉ storedKnownOrder s providers := by
  unfold newlyAddedOf
  rw [mem_keepFirst]
  simp [List.mem_filter]

theorem mem_normalize_order (s : ProviderSettings) (providers : List ProviderMeta)
    (y : Str) : y ∈ (normalizeProviderSettings s providers).order ↔
      y ∈ knownIdsOf providers := by
  rw [normalizeSettings_eq]
  simp only [List.mem_append, mem_storedKnownOrder, mem_newlyAddedOf]
  constructor
  · rintro (⟨_, hk⟩ | ⟨hk, _⟩) <;> exact hk
  · intro hk
    by_cases hs : y ∈ s.order ∧ y ∈ knownIdsOf providers
    · exact Or.inl hs
    · exact Or.inr ⟨hk, hs⟩

theorem nodup_normalize_order (s : ProviderSettings) (providers : List ProviderMeta) :
    (normalizeProviderSettings s providers).order.Nodup := by
  rw [normalizeSettings_eq]
  refine List.Nodup.append (nodup_keepFirst _) (nodup_keepFirst _) ?_
  intro y hy1 hy2
  exact ((mem_newlyAddedOf s providers y).mp hy2).2 hy1

theorem count_zero_of_not_mem {l : List Str} {id : Str} (hm : id ∉ l) :
    l.count id = 0 := by
  induction l with
  | nil => rfl
  | cons x xs ih =>
    rw [List.count_cons]
    have hne : ¬(id = x) := fun he => hm (he ▸ List.mem_cons_self x xs)
    simp [ih (fun h => hm (List.mem_cons_of_mem _ h)), hne, Ne.symm hne]

theorem count_one_of_nodup_mem {l : List Str} (h : l.Nodup) {id : Str}
    (hm : id ∈ l) : l.count id = 1 := by
  induction l with
  | nil => cases hm
  | cons x xs ih =>
    rw [List.count_cons]
    rcases List.mem_cons.mp hm with rfl | hm'
    · have hni : id ∉ xs := (List.nodup_cons.mp h).1
      simp [count_zero_of_not_mem hni]
    · have hne : ¬(id = x) := fun he => (List.nodup_cons.mp h).1 (he ▸ hm')
      simp [ih (List.nodup_cons.mp h).2 hm', hne, Ne.symm hne]

theorem count_normalize_order (s : ProviderSettings) (providers : List ProviderMeta)
    (id : Str) : (normalizeProviderSettings s providers).order.count id =
      if id ∈ knownIdsOf providers then 1 else 0 := by
  by_cases hk : id ∈ knownIdsOf providers
  · rw [if_pos hk]
    exact count_one_of_nodup_mem (nodup_normalize_order s providers)
      ((mem_normalize_order s providers id).mpr hk)
  · rw [if_neg hk]
    exact count_zero_of_not_mem
      (fun hmem => hk ((mem_normalize_order s providers id).mp hmem))

theorem mem_normalize_disabled (s : ProviderSettings) (providers : List ProviderMeta)
    (y : Str) : y ∈ (normalizeProviderSettings s providers).disabled ↔
      (y ∈ s.disabled ∧ y ∈ knownIdsOf providers) ∨
        (y ∈ knownIdsOf providers ∧ y ∉ storedKnownOrder s providers ∧
          y ∉ DEFAULT_ENABLED_PROVIDERS) := by
  rw [normalizeSettings_eq]
  rw [mem_appendNewDisabledLoop]
  simp only [List.mem_filter, mem_newlyAddedOf, decide_eq_true_eq]
  tauto

/-! ## Claim theorems: settings normalizer -/

/-- C4: after normalization the order contains every known provider id
exactly once — the known ids of the stored order first, deduplicated in
stored relative order, then the remaining known ids — and the disabled list
contains only known ids and receives every newly appended id outside the
fixed default-enabled set; no unknown id appears in either list. -/
theorem spec_c4 :
    ∀ (s : ProviderSettings) (providers : List ProviderMeta),
      (∀ id, (normalizeProviderSettings s providers).order.count id =
          if id ∈ knownIdsOf providers then 1 else 0) ∧
      (normalizeProviderSettings s providers).order =
        storedKnownOrder s providers ++ newlyAddedOf s providers ∧
      (∀ id ∈ (normalizeProviderSettings s providers).disabled,
          id ∈ knownIdsOf providers) ∧
      (∀ id, id ∈ knownIdsOf providers → id ∉ s.order →
          id ∉ DEFAULT_ENABLED_PROVIDERS →
          id ∈ (normalizeProviderSettings s providers).disabled) := by
  intro s providers
  refine ⟨count_normalize_order s providers, ?_, ?_, ?_⟩
  · rw [normalizeSettings_eq]
  · intro id hid
    rcases (mem_normalize_disabled s providers id).mp hid with ⟨_, hk⟩ | ⟨hk, _, _⟩ <;>
      exact hk
  · intro id hk hno hdef
    refine (mem_normalize_disabled s providers id).mpr (Or.inr ⟨hk, ?_, hdef⟩)
    intro hsko
    exact hno ((mem_storedKnownOrder s providers id).mp hsko).1

theorem spec_c4_witness :
    ['p'] ∈ (normalizeProviderSettings ⟨[], []⟩
        [⟨['p'], [], [], none, []⟩]).disabled :=
  (spec_c4 ⟨[], []⟩ [⟨['p'], [], [], none, []⟩]).2.2.2 ['p']
    (by decide) (by decide) (by decide)

theorem providerSettings_ext {a b : ProviderSettings}
    (h1 : a.order = b.order) (h2 : a.disabled = b.disabled) : a = b := by
  cases a
  cases b
  simp_all

/-- C8: `normalizeProviderSettings` is idempotent — renormalizing a
normalized settings value returns it unchanged (structurally equal order and
disabled arrays, which is what `areProviderSettingsEqual` checks). -/
theorem spec_c8 :
    ∀ (s : ProviderSettings) (providers : List ProviderMeta),
      normalizeProviderSettings (normalizeProviderSettings s providers) providers =
        normalizeProviderSettings s providers ∧
      areProviderSettingsEqual
        (normalizeProviderSettings (normalizeProviderSettings s providers) providers)
        (normalizeProviderSettings s providers) = true := by
  intro s providers
  have hmain : normalizeProviderSettings (normalizeProviderSettings s providers)
      providers = normalizeProviderSettings s providers := by
    have hko : ∀ y ∈ (normalizeProviderSettings s providers).order,
        y ∈ knownIdsOf providers :=
      fun y hy => (mem_normalize_order s providers y).mp hy
    have hnd : (normalizeProviderSettings s providers).order.Nodup :=
      nodup_normalize_order s providers
    have hSKO : storedKnownOrder (normalizeProviderSettings s providers) providers =
        (normalizeProviderSettings s providers).order := by
      unfold storedKnownOrder
      rw [List.filter_eq_self.mpr (fun y hy => decide_eq_true (hko y hy)),
        keepFirst_of_nodup _ hnd]
    have hnew : newlyAddedOf (normalizeProviderSettings s providers) providers = [] := by
      unfold newlyAddedOf
      rw [hSKO]
      have hfil : (knownIdsOf providers).filter
          (fun id => decide (id ∉ (normalizeProviderSettings s providers).order)) = [] := by
        rw [List.filter_eq_nil_iff]
        intro a ha
        simp [(mem_normalize_order s providers a).mpr ha]
      rw [hfil, keepFirst]
    refine providerSettings_ext ?_ ?_
    · rw [normalizeSettings_eq (normalizeProviderSettings s providers) providers]
      simp only [hSKO, hnew, List.append_nil]
    · rw [normalizeSettings_eq (normalizeProviderSettings s providers) providers]
      simp only [hnew]
      rw [appendNewDisabledLoop]
      exact List.filter_eq_self.mpr fun y hy => decide_eq_true
        (by
          rcases (mem_normalize_disabled s providers y).mp hy with ⟨_, hk⟩ | ⟨hk, _, _⟩ <;>
            exact hk)
  refine ⟨hmain, ?_⟩
  rw [hmain]
  unfold areProviderSettingsEqual
  simp

/-! ## Tray aggregation lemmas -/

theorem trayLoop_eq (metaById : Str → Option ProviderMeta) (disabled : List Str)
    (states : Str → Option ProviderState) (displayMode : DisplayMode)
    (maxBars : Nat) :
    ∀ (ids : List Str) (out : List TrayPrimaryBar),
      trayLoop metaById disabled states displayMode maxBars ids out =
        out ++ ((ids.filter (isEligible metaById disabled)).take
            (max (maxBars - out.length) 1)).map
          (fun id => ⟨id, barFraction metaById states displayMode id⟩) := by
  intro ids
  induction ids with
  | nil => intro out; rw [trayLoop]; simp
  | cons id rest ih =>
    intro out
    simp only [trayLoop]
    by_cases hdis : id ∈ disabled
    · rw [if_pos hdis, ih]
      have hfil : (id :: rest).filter (isEligible metaById disabled) =
          rest.filter (isEligible metaById disabled) := by
        simp [List.filter_cons, isEligible, hdis]
      rw [hfil]
    · rw [if_neg hdis]
      cases hmeta : metaById id with
      | none =>
        dsimp only
        rw [ih]
        have hfil : (id :: rest).filter (isEligible metaById disabled) =
            rest.filter (isEligible metaById disabled) := by
          simp [List.filter_cons, isEligible, hdis, hmeta]
        rw [hfil]
      | some meta =>
        dsimp only
        by_cases hcand : meta.primaryCandidates = []
        · rw [if_pos hcand, ih]
          have hfil : (id :: rest).filter (isEligible metaById disabled) =
              rest.filter (isEligible metaById disabled) := by
            simp [List.filter_cons, isEligible, hdis, hmeta, hcand]
          rw [hfil]
        · rw [if_neg hcand]
          have helig : isEligible metaById disabled id = true := by
            simp [isEligible, hdis, hmeta, hcand]
          have hfil : (id :: rest).filter (isEligible metaById disabled) =
              id :: rest.filter (isEligible metaById disabled) := by
            simp [List.filter_cons, helig]
          rw [hfil]
          have hbar : barFraction metaById states displayMode id =
              computeFraction meta (states id) displayMode := by
            simp [barFraction, hmeta]
          by_cases hstop : maxBars ≤
              (out ++ [(⟨id, computeFraction meta (states id) displayMode⟩ :
                TrayPrimaryBar)]).length
          · rw [if_pos hstop]
            have hm1 : max (maxBars - out.length) 1 = 1 := by
              simp only [List.length_append, List.length_cons, List.length_nil] at hstop
              omega
            rw [hm1]
            simp [hbar]
          · rw [if_neg hstop, ih]
            have hge : 2 ≤ maxBars - out.length := by
              simp only [List.length_append, List.length_cons, List.length_nil] at hstop
              omega
            have hmax1 : max (maxBars - out.length) 1 = maxBars - out.length := by
              omega
            have hlen2 : (out ++ [(⟨id, computeFraction meta (states id) displayMode⟩ :
                TrayPrimaryBar)]).length = out.length + 1 := by
              simp
            rw [hmax1, hlen2]
            have hmax2 : max (maxBars - (out.length + 1)) 1 = maxBars - out.length - 1 := by
              omega
            rw [hmax2]
            rw [show maxBars - out.length = (maxBars - out.length - 1) + 1 by omega,
              List.take_succ_cons]
            simp [hbar, List.append_assoc]

theorem getTrayPrimaryBars_eq (providersMeta : List ProviderMeta)
    (settings : ProviderSettings) (states : Str → Option ProviderState)
    (maxBars : Nat) (displayMode : DisplayMode) :
    getTrayPrimaryBars providersMeta (some settings) states maxBars displayMode =
      ((settings.order.filter (isEligible (metaLookup providersMeta)
          settings.disabled)).take (max maxBars 1)).map
        (fun id => ⟨id, barFraction (metaLookup providersMeta) states displayMode id⟩) := by
  simp only [getTrayPrimaryBars]
  rw [trayLoop_eq]
  simp

theorem clamp01_bounds (v : JsNum) : 0 ≤ clamp01 v ∧ clamp01 v ≤ 1 := by
  cases v with
  | none => simp [clamp01]
  | some q =>
    unfold clamp01
    dsimp only
    split_ifs <;> constructor <;> linarith

theorem aggregateFraction_bounds {lines : List ProgressLine} {dm : DisplayMode}
    {q : ℚ} (h : aggregateFraction lines dm = some q) : 0 ≤ q ∧ q ≤ 1 := by
  simp only [aggregateFraction] at h
  split_ifs at h <;> simp only [Option.some.injEq, reduceCtorEq] at h <;>
    exact h ▸ clamp01_bounds _

theorem computeFraction_bounds {meta : ProviderMeta} {st : Option ProviderState}
    {dm : DisplayMode} {q : ℚ} (h : computeFraction meta st dm = some q) :
    0 ≤ q ∧ q ≤ 1 := by
  unfold computeFraction at h
  cases st with
  | none => simp at h
  | some st' =>
    dsimp only at h
    cases hd : st'.data with
    | none => rw [hd] at h; simp at h
    | some data =>
      rw [hd] at h
      dsimp only at h
      cases hfind : meta.primaryCandidates.find?
          (fun label => data.lines.any (lineMatchesLabel label)) with
      | none => rw [hfind] at h; simp at h
      | some primaryLabel =>
        rw [hfind] at h
        exact aggregateFraction_bounds h

theorem barFraction_bounds {metaById : Str → Option ProviderMeta}
    {states : Str → Option ProviderState} {dm : DisplayMode} {id : Str} {q : ℚ}
    (h : barFraction metaById states dm id = some q) : 0 ≤ q ∧ q ≤ 1 := by
  unfold barFraction at h
  cases hm : metaById id with
  | none => rw [hm] at h; simp at h
  | some meta =>
    rw [hm] at h
    exact computeFraction_bounds h

/-! ## Claim theorems: usage aggregator -/

/-- Counterexample to C5 as stated: the cutoff is checked only after a bar
has been pushed, so with `maxBars = 0` and one eligible provider the output
has length `1 > 0`. -/
theorem spec_c5_counterexample :
    ¬ ((getTrayPrimaryBars [⟨['p'], [], [], none, [['t']]⟩]
        (some ⟨[['p']], []⟩) (fun _ => none) 0 DisplayMode.left).length ≤ 0) := by
  decide

/-- C5 (amended): for `maxBars ≥ 1` and a non-null settings value, the
output has length at most `maxBars`, its ids are exactly the stored order
filtered to enabled, known providers with non-empty `primaryCandidates`,
cut off at `maxBars` (one entry per order occurrence), and every defined
fraction lies in `[0, 1]`. -/
theorem spec_c5 :
    ∀ (providersMeta : List ProviderMeta) (settings : ProviderSettings)
      (providerStates : Str → Option ProviderState) (maxBars : Nat)
      (displayMode : DisplayMode),
      1 ≤ maxBars →
      (getTrayPrimaryBars providersMeta (some settings) providerStates maxBars
          displayMode).length ≤ maxBars ∧
      (getTrayPrimaryBars providersMeta (some settings) providerStates maxBars
          displayMode).map (fun b => b.id) =
        (settings.order.filter
            (isEligible (metaLookup providersMeta) settings.disabled)).take maxBars ∧
      ∀ b ∈ getTrayPrimaryBars providersMeta (some settings) providerStates maxBars
          displayMode, ∀ q, b.fraction = some q → 0 ≤ q ∧ q ≤ 1 := by
  intro metas settings states maxBars dm h1
  have hmax : max maxBars 1 = maxBars := by omega
  rw [getTrayPrimaryBars_eq, hmax]
  refine ⟨?_, ?_, ?_⟩
  · simp only [List.length_map, List.length_take]
    exact inf_le_left
  · have hid : ((fun (b : TrayPrimaryBar) => b.id) ∘
        fun id => (⟨id, barFraction (metaLookup metas) states dm id⟩ :
          TrayPrimaryBar)) = fun id : Str => id := by
      funext x
      rfl
    rw [List.map_map, hid, List.map_id']
  · intro b hb q hq
    rcases List.mem_map.mp hb with ⟨id, _, rfl⟩
    exact barFraction_bounds hq

theorem spec_c5_witness :
    (getTrayPrimaryBars [] (some ⟨[], []⟩) (fun _ => none) 2
        DisplayMode.left).length ≤ 2 :=
  (spec_c5 [] ⟨[], []⟩ (fun _ => none) 2 DisplayMode.left (by decide)).1

theorem valid_limit_pos {l : ProgressLine} (h : validProgressLine l = true) :
    0 < jsVal l.limit := by
  unfold validProgressLine at h
  cases hlim : l.limit with
  | none => rw [hlim] at h; simp at h
  | some ql =>
    rw [hlim] at h
    cases hu : l.used with
    | none => rw [hu] at h; simp at h
    | some qu =>
      rw [hu] at h
      simp only [decide_eq_true_eq] at h
      simpa [jsVal, hlim] using h

theorem totalLimit_pos {lines : List ProgressLine}
    (h : lines.filter validProgressLine ≠ []) :
    0 < ((lines.filter validProgressLine).map (fun l => jsVal l.limit)).sum := by
  apply List.sum_pos
  · intro x hx
    rcases List.mem_map.mp hx with ⟨l, hl, rfl⟩
    exact valid_limit_pos (List.of_mem_filter hl)
  · simpa using h

/-- C1: for every non-empty valid set of matched progress lines the
aggregator returns `clamp01(shown / Σlimit)` with
`shown = displayMode == "used" ? Σused : Σlimit - Σused`, and on the
two-account fixture `(10,100)`, `(5,50)` in `"used"` mode the pipeline
reports the fraction `15/150 = 1/10`. -/
theorem spec_c1 :
    (∀ (lines : List ProgressLine) (displayMode : DisplayMode),
      lines.filter validProgressLine ≠ [] →
      aggregateFraction lines displayMode =
        some (clamp01 (some (
          (if displayMode = .used
            then ((lines.filter validProgressLine).map (fun l => jsVal l.used)).sum
            else ((lines.filter validProgressLine).map (fun l => jsVal l.limit)).sum -
              ((lines.filter validProgressLine).map (fun l => jsVal l.used)).sum) /
          ((lines.filter validProgressLine).map (fun l => jsVal l.limit)).sum)))) ∧
    getTrayPrimaryBars [twoAccountMeta] (some ⟨[['p']], []⟩) twoAccountStates 4
        DisplayMode.used = [⟨['p'], some (1/10)⟩] := by
  constructor
  · intro lines dm hne
    simp only [aggregateFraction]
    rw [if_neg hne, if_neg (not_le.mpr (totalLimit_pos hne))]
  · rw [getTrayPrimaryBars_eq]
    have hfil : List.filter (isEligible (metaLookup [twoAccountMeta]) [])
        [['p']] = [['p']] := by decide
    rw [hfil]
    have hbar : barFraction (metaLookup [twoAccountMeta]) twoAccountStates
        DisplayMode.used ['p'] = some (1/10) := by
      have hml : metaLookup [twoAccountMeta] ['p'] = some twoAccountMeta := by
        decide
      unfold barFraction
      rw [hml]
      unfold computeFraction
      have hst : twoAccountStates ['p'] =
          some ⟨some ⟨['p'], [], none, twoAccountLines, []⟩, false, none⟩ := by
        decide
      rw [hst]
      dsimp only
      have hfind : twoAccountMeta.primaryCandidates.find?
          (fun label => twoAccountLines.any (lineMatchesLabel label)) =
          some ['T'] := by decide
      rw [hfind]
      dsimp only
      have hmatch : matchingProgressLines twoAccountLines ['T'] =
          [⟨prefixAccountLabel ['A'] ['a'] ['T'], some 10, some 100,
              .percent, none, none⟩,
           ⟨prefixAccountLabel ['B'] ['b'] ['T'], some 5, some 50,
              .percent, none, none⟩] := by decide
      rw [hmatch]
      simp only [aggregateFraction]
      norm_num [validProgressLine, jsVal, clamp01, List.filter]
      exact fun h => absurd h (List.cons_ne_nil _ _)
    simp [hbar]

theorem spec_c1_witness :
    aggregateFraction [sampleProgressLine] DisplayMode.used =
      some (clamp01 (some (
        (if DisplayMode.used = DisplayMode.used
          then (([sampleProgressLine].filter validProgressLine).map
            (fun l => jsVal l.used)).sum
          else (([sampleProgressLine].filter validProgressLine).map
            (fun l => jsVal l.limit)).sum -
            (([sampleProgressLine].filter validProgressLine).map
              (fun l => jsVal l.used)).sum) /
        (([sampleProgressLine].filter validProgressLine).map
          (fun l => jsVal l.limit)).sum))) :=
  spec_c1.1 [sampleProgressLine] DisplayMode.used (by decide)
